import Mathlib

/-!
# Verification of the bcrypt-small base64 variant codec and hash record layer

Shallow embedding of `src/base64.rs` and `src/lib.rs`.  Byte strings are
modelled as `List Nat` whose elements are below 256; Rust `u8` arithmetic is
modelled with explicit `% 256` where the source relies on wrapping.  Fallible
operations return `Except`/`Option`; an out-of-buffer write through the
source's `to_iter.next().unwrap()` is modelled as `none`.
-/

set_option maxRecDepth 4000

namespace BcryptSmall

/-- Error type of the base64 variant codec (`Base64Error` in `src/base64.rs`). -/
inductive Base64Error where
  | InvalidCharacter
  | Length
deriving DecidableEq, Repr

namespace base64

/-- The 64-character alphabet `./ABCDEFGHIJKLMNOPQRSTUVWXYZabcdefghijklmnopqrstuvwxyz0123456789`
from `src/base64.rs`, as ASCII codes. -/
def ALPHABET : List Nat :=
  [46, 47,
   65, 66, 67, 68, 69, 70, 71, 72, 73, 74, 75, 76, 77, 78, 79, 80, 81, 82, 83,
   84, 85, 86, 87, 88, 89, 90,
   97, 98, 99, 100, 101, 102, 103, 104, 105, 106, 107, 108, 109, 110, 111, 112,
   113, 114, 115, 116, 117, 118, 119, 120, 121, 122,
   48, 49, 50, 51, 52, 53, 54, 55, 56, 57]

/-- The 77-entry reverse lookup table from `src/base64.rs`, indexed by
`c - 46` (ASCII code minus code of the dot character); `-1` marks a gap. -/
def REVERSE_ALPHABET : List Int :=
  [0, 1,
   54, 55, 56, 57, 58, 59, 60, 61, 62, 63,
   -1, -1, -1, -1, -1, -1, -1,
   2, 3, 4, 5, 6, 7, 8, 9, 10, 11, 12, 13, 14, 15, 16, 17, 18, 19, 20, 21, 22,
   23, 24, 25, 26, 27,
   -1, -1, -1, -1, -1, -1,
   28, 29, 30, 31, 32, 33, 34, 35, 36, 37, 38, 39, 40, 41, 42, 43, 44, 45, 46,
   47, 48, 49, 50, 51, 52, 53]

/-- Embeds `fn char_at(index: u8) -> u8`, which is `ALPHABET[usize::from(index)]`.  Every
call site in the source passes a value below 64 (each argument is a 6-bit
mask or shift of a `u8`), so the Rust index panic cannot fire; the `getD`
default is never reached under that precondition. -/
def char_at (index : Nat) : Nat :=
  ALPHABET.getD index 0

/-- Embeds `fn index_for(c: u8) -> Result<u8, Base64Error>`: looks up
`REVERSE_ALPHABET[c.wrapping_sub(b'.')]`; an out-of-range index or a `-1`
entry is `InvalidCharacter`.  `c.wrapping_sub(46)` on `u8` is
`(c + 210) % 256` for `c < 256`. -/
def index_for (c : Nat) : Except Base64Error Nat :=
  match REVERSE_ALPHABET.get? ((c + 210) % 256) with
  | none => .error .InvalidCharacter
  | some i => if i = -1 then .error .InvalidCharacter else .ok i.toNat

/-- Embeds `pub fn encode(from: &[u8], to: &mut [u8])` from `src/base64.rs`.
The first argument is the input, the second the output buffer; the result is
the final contents of the buffer, or `none` when `to_iter.next().unwrap()`
panics because the buffer is exhausted.  The source walks
`from.chunks_exact(3)` and then its remainder, emitting 4, 2 or 3 characters
per full chunk, 1-byte remainder, or 2-byte remainder respectively; cells
beyond the written region keep their previous contents. -/
def encode : List Nat → List Nat → Option (List Nat)
  | b0 :: b1 :: b2 :: rest, _ :: _ :: _ :: _ :: buf =>
    (encode rest buf).map fun tail =>
      char_at (b0 >>> 2) ::
      char_at ((((b0 &&& 3) <<< 4) % 256) ||| (b1 >>> 4)) ::
      char_at ((((b1 &&& 15) <<< 2) % 256) ||| (b2 >>> 6)) ::
      char_at (b2 &&& 63) :: tail
  | _ :: _ :: _ :: _, _ => none
  | [], buf => some buf
  | [b0], _ :: _ :: buf =>
    some (char_at (b0 >>> 2) :: char_at (((b0 &&& 3) <<< 4) % 256) :: buf)
  | [_], _ => none
  | [b0, b1], _ :: _ :: _ :: buf =>
    some (char_at (b0 >>> 2) ::
      char_at ((((b0 &&& 3) <<< 4) % 256) ||| (b1 >>> 4)) ::
      char_at (((b1 &&& 15) <<< 2) % 256) :: buf)
  | [_, _], _ => none

/-- The sequence of characters `encode` writes, in write order (a pure view
of the same chunks-of-3-plus-remainder loop; `encode` below is proved to
write exactly this list into the buffer). -/
def encodeList : List Nat → List Nat
  | b0 :: b1 :: b2 :: rest =>
    char_at (b0 >>> 2) ::
    char_at ((((b0 &&& 3) <<< 4) % 256) ||| (b1 >>> 4)) ::
    char_at ((((b1 &&& 15) <<< 2) % 256) ||| (b2 >>> 6)) ::
    char_at (b2 &&& 63) :: encodeList rest
  | [] => []
  | [b0] => [char_at (b0 >>> 2), char_at (((b0 &&& 3) <<< 4) % 256)]
  | [b0, b1] =>
    [char_at (b0 >>> 2),
     char_at ((((b0 &&& 3) <<< 4) % 256) ||| (b1 >>> 4)),
     char_at (((b1 &&& 15) <<< 2) % 256)]

/-- Embeds `pub fn decode(from: &[u8], to: &mut [u8]) -> Result<(), Base64Error>`
from `src/base64.rs`.  The result is `none` when a buffer write panics,
`some (.error e)` when the source returns `Err(e)`, and `some (.ok buf)` with
the final buffer contents on success.  The source walks
`from.chunks_exact(4)`, resolving all four indices (left to right, erroring
first) before writing three bytes, then handles the remainder: one trailing
character is `Length`; two or three trailing characters write one or two
bytes.  Left shifts are `u8` shifts, hence the `% 256`. -/
def decode : List Nat → List Nat → Option (Except Base64Error (List Nat))
  | c0 :: c1 :: c2 :: c3 :: rest, buf =>
    match index_for c0, index_for c1, index_for c2, index_for c3 with
    | .ok i0, .ok i1, .ok i2, .ok i3 =>
      match buf with
      | _ :: _ :: _ :: buf2 =>
        (decode rest buf2).map fun r => r.map fun tail =>
          (((i0 <<< 2) % 256) ||| (i1 >>> 4)) ::
          (((i1 <<< 4) % 256) ||| (i2 >>> 2)) ::
          (((i2 <<< 6) % 256) ||| i3) :: tail
      | _ => none
    | .error e, _, _, _ => some (.error e)
    | _, .error e, _, _ => some (.error e)
    | _, _, .error e, _ => some (.error e)
    | _, _, _, .error e => some (.error e)
  | [], buf => some (.ok buf)
  | [_], _ => some (.error .Length)
  | [c0, c1], buf =>
    match index_for c0, index_for c1 with
    | .ok i0, .ok i1 =>
      match buf with
      | _ :: buf2 => some (.ok ((((i0 <<< 2) % 256) ||| (i1 >>> 4)) :: buf2))
      | _ => none
    | .error e, _ => some (.error e)
    | _, .error e => some (.error e)
  | [c0, c1, c2], buf =>
    match index_for c0, index_for c1, index_for c2 with
    | .ok i0, .ok i1, .ok i2 =>
      match buf with
      | _ :: _ :: buf2 =>
        some (.ok ((((i0 <<< 2) % 256) ||| (i1 >>> 4)) ::
          (((i1 <<< 4) % 256) ||| (i2 >>> 2)) :: buf2))
      | _ => none
    | .error e, _, _ => some (.error e)
    | _, .error e, _ => some (.error e)
    | _, _, .error e => some (.error e)

/-- The sequence of bytes `decode` produces, in write order (pure view of the
same chunks-of-4-plus-remainder loop, with the same error behaviour). -/
def decodeList : List Nat → Except Base64Error (List Nat)
  | c0 :: c1 :: c2 :: c3 :: rest =>
    match index_for c0, index_for c1, index_for c2, index_for c3 with
    | .ok i0, .ok i1, .ok i2, .ok i3 =>
      (decodeList rest).map fun tail =>
        (((i0 <<< 2) % 256) ||| (i1 >>> 4)) ::
        (((i1 <<< 4) % 256) ||| (i2 >>> 2)) ::
        (((i2 <<< 6) % 256) ||| i3) :: tail
    | .error e, _, _, _ => .error e
    | _, .error e, _, _ => .error e
    | _, _, .error e, _ => .error e
    | _, _, _, .error e => .error e
  | [] => .ok []
  | [_] => .error .Length
  | [c0, c1] =>
    match index_for c0, index_for c1 with
    | .ok i0, .ok i1 => .ok [((i0 <<< 2) % 256) ||| (i1 >>> 4)]
    | .error e, _ => .error e
    | _, .error e => .error e
  | [c0, c1, c2] =>
    match index_for c0, index_for c1, index_for c2 with
    | .ok i0, .ok i1, .ok i2 =>
      .ok [((i0 <<< 2) % 256) ||| (i1 >>> 4),
        ((i1 <<< 4) % 256) ||| (i2 >>> 2)]
    | .error e, _, _ => .error e
    | _, .error e, _ => .error e
    | _, _, .error e => .error e

end base64

/-- Modelled from the spec: the external KDF collaborator's work-factor type
(`bcrypt_only::WorkFactor`, not part of this repository).  The spec describes
it as a small integer of log rounds, in text two decimal digits `04`..`31`,
with the numeric range enforced by the collaborator's constructor; values are
therefore a subtype of `Nat` restricted to that range. -/
abbrev WorkFactor := {n : Nat // 4 ≤ n ∧ n ≤ 31}

/-- Modelled from the spec: `WorkFactor::exp`, the constructor the parser
delegates the range check to; accepts exactly the supported log-rounds
values. -/
def WorkFactor.exp (n : Nat) : Option WorkFactor :=
  if h : 4 ≤ n ∧ n ≤ 31 then some ⟨n, h⟩ else none

/-- Modelled from the spec: `WorkFactor::log_rounds` returns the stored
log-rounds value. -/
def WorkFactor.log_rounds (w : WorkFactor) : Nat := w.val

/-- Modelled from the spec: the external collaborator's `Salt` type holds
exactly 16 raw bytes (`bcrypt_only::Salt`, not part of this repository). -/
structure Salt where
  bytes : List Nat
deriving DecidableEq, Repr

/-- Modelled from the spec: `Salt::from_bytes` wraps the byte contents. -/
def Salt.from_bytes (b : List Nat) : Salt := ⟨b⟩

/-- Modelled from the spec: `Salt::to_bytes` returns the byte contents. -/
def Salt.to_bytes (s : Salt) : List Nat := s.bytes

/-- Embeds `pub struct Hash` from `src/lib.rs`: work factor, salt, and the 23-byte
digest. -/
structure Hash where
  work_factor : WorkFactor
  salt : Salt
  hash : List Nat
deriving DecidableEq, Repr

/-- Embeds `pub enum ParseError` from `src/lib.rs`. -/
inductive ParseError where
  | Length
  | BadPrefix
  | WorkFactor
  | Salt
  | Hash
deriving DecidableEq, Repr

/-- ASCII code of a decimal digit. -/
def isAsciiDigit (b : Nat) : Bool := 48 ≤ b && b ≤ 57

/-- Rust's `str::parse::<u32>` restricted to a two-byte string, as used on
bytes 4..6 of the hash text: an optional leading plus sign followed by at
least one ASCII digit (`u32::from_str` accepts an optional `+` before the
digits; a minus sign always fails for an unsigned target).  Overflow cannot
occur with two characters. -/
def parse_u32_2 (a b : Nat) : Option Nat :=
  if isAsciiDigit a && isAsciiDigit b then some (10 * (a - 48) + (b - 48))
  else if a == 43 && isAsciiDigit b then some (b - 48)
  else none

/-- A UTF-8 continuation byte (`0x80..=0xBF`). -/
def isCont (b : Nat) : Bool := 128 ≤ b && b < 192

/-- Embeds `s.get(4..6)` from `Hash::from_str`, on the underlying bytes: for a valid
UTF-8 string it is `Some` exactly when positions 4 and 6 are character
boundaries.  Position 4 always is one where this is called (the prefix check
has already forced bytes 0..3 to be ASCII), and position 6 is a boundary
exactly when byte 6 is not a continuation byte. -/
def get46 (s : List Nat) : Option (Nat × Nat) :=
  if isCont (s.getD 6 0) then none else some (s.getD 4 0, s.getD 5 0)

/-- ASCII codes of the accepted prefixes checked by `Hash::from_str`. -/
def PREFIX_2A : List Nat := [36, 50, 97, 36]

/-- ASCII codes of the canonical prefix written by `Hash::to_formatted`. -/
def PREFIX_2B : List Nat := [36, 50, 98, 36]

/-- ASCII codes of the third accepted prefix. -/
def PREFIX_2Y : List Nat := [36, 50, 121, 36]

/-- The prefix test of `Hash::from_str`:
`s.starts_with("$2a$") || s.starts_with("$2b$") || s.starts_with("$2y$")`. -/
def prefix_ok (s : List Nat) : Bool :=
  PREFIX_2A.isPrefixOf s || PREFIX_2B.isPrefixOf s || PREFIX_2Y.isPrefixOf s

/-- Embeds `impl FromStr for Hash` from `src/lib.rs`, on the string bytes.
`none` models a panic (which in fact cannot occur: both decode buffers are
exactly sized).  Steps, in source order: length must be 60; prefix must be
`$2a$`, `$2b$` or `$2y$`; `s.get(4..6)` then `parse` then `WorkFactor::exp`
must produce a work factor, else `WorkFactor`; bytes 7..29 must decode into
a 16-byte buffer, else `Salt`; bytes 29..60 must decode into a 23-byte
buffer, else `Hash`. -/
def from_str (s : List Nat) : Option (Except ParseError Hash) :=
  if s.length ≠ 60 then some (.error .Length)
  else if ¬ prefix_ok s then some (.error .BadPrefix)
  else
    match (get46 s).bind fun p => (parse_u32_2 p.1 p.2).bind WorkFactor.exp with
    | none => some (.error .WorkFactor)
    | some wf =>
      match base64.decode ((s.drop 7).take 22) (List.replicate 16 0) with
      | none => none
      | some (.error _) => some (.error .Salt)
      | some (.ok saltBytes) =>
        match base64.decode ((s.drop 29).take 31) (List.replicate 23 0) with
        | none => none
        | some (.error _) => some (.error .Hash)
        | some (.ok hashBytes) =>
          some (.ok { work_factor := wf, salt := Salt.from_bytes saltBytes,
                      hash := hashBytes })

/-- Embeds `Hash::to_formatted` from `src/lib.rs`: builds the 60-byte array
`$2b$` + two work-factor digits + `$` + salt encoded into the exactly sized
slice 7..29 + digest encoded into the exactly sized slice 29..60 (both
slices start zeroed); `none` models an encode panic, impossible for
correctly sized fields. -/
def to_formatted (h : Hash) : Option (List Nat) :=
  match base64.encode h.salt.to_bytes (List.replicate 22 0),
        base64.encode h.hash (List.replicate 31 0) with
  | some saltChars, some hashChars =>
    some ([36, 50, 98, 36,
           48 + h.work_factor.log_rounds / 10,
           48 + h.work_factor.log_rounds % 10, 36] ++ saltChars ++ hashChars)
  | _, _ => none

/-- The alphabet index of a character, defaulting to 0 on invalid input;
agrees with `index_for` on every valid character. -/
def idxOf (c : Nat) : Nat :=
  match base64.index_for c with
  | .ok i => i
  | .error _ => 0

/-- Whether a byte is one of the 64 alphabet characters, i.e. whether
`index_for` accepts it. -/
def validChar (c : Nat) : Bool :=
  match base64.index_for c with
  | .ok _ => true
  | .error _ => false

/-- Whether the discarded low-order bits of the final character of a partial
trailing group are zero, i.e. whether the text is a possible output of
`encode`: a trailing 2-character group requires the last index to have zero
low 4 bits, a trailing 3-character group zero low 2 bits. -/
def canonicalTail : List Nat → Bool
  | _ :: _ :: _ :: _ :: rest => canonicalTail rest
  | [_, c1] => idxOf c1 % 16 == 0
  | [_, _, c2] => idxOf c2 % 4 == 0
  | _ => true

/-- Whether `from_str` succeeds on the given bytes. -/
def parsesOk (s : List Nat) : Bool :=
  match from_str s with
  | some (.ok _) => true
  | _ => false

/-- The spec's `format(parse(text))` composition: re-format a successfully
parsed record. -/
def reformat (s : List Nat) : Option (List Nat) :=
  match from_str s with
  | some (.ok r) => to_formatted r
  | _ => none

mutual

/-- A UTF-8 well-formedness check on byte lists.  It accepts every
well-formed UTF-8 string (and also some ill-formed sequences: overlong
forms, surrogates and a few out-of-range lead bytes are not rejected), so it
over-approximates the contents of a Rust `str`.  All that matters below is
that it is a superset of valid UTF-8 and that character boundaries are
determined left to right, which this structure gives. -/
def utf8Valid : List Nat → Bool
  | [] => true
  | b :: rest =>
    if b < 128 then utf8Valid rest
    else if b < 192 then false
    else if b < 224 then utf8Tail1 rest
    else if b < 240 then utf8Tail2 rest
    else if b < 245 then utf8Tail3 rest
    else false

/-- One continuation byte, then a valid sequence. -/
def utf8Tail1 : List Nat → Bool
  | c :: rest => isCont c && utf8Valid rest
  | [] => false

/-- Two continuation bytes, then a valid sequence. -/
def utf8Tail2 : List Nat → Bool
  | c :: rest => isCont c && utf8Tail1 rest
  | [] => false

/-- Three continuation bytes, then a valid sequence. -/
def utf8Tail3 : List Nat → Bool
  | c :: rest => isCont c && utf8Tail2 rest
  | [] => false

end

/-- The reference parse test vector from the repository's test suite (bytes of a 60-character ASCII string). -/
def TEST_VECTOR : List Nat :=
  [36, 50, 98, 36, 48, 52, 36, 99, 86, 87, 112, 52, 88, 97, 78, 85, 56, 97,
   52, 118, 49, 117, 77, 82, 117, 109, 50, 83, 79, 48, 50, 54, 66, 87, 76,
   73, 111, 81, 77, 68, 47, 84, 88, 103, 53, 117, 90, 86, 46, 48, 80, 46,
   117, 79, 56, 109, 51, 89, 69, 109]

/-- The reference test vector with its work-factor field replaced by a plus sign and one digit (bytes of a 60-character ASCII string). -/
def VECTOR_PLUS : List Nat :=
  [36, 50, 98, 36, 43, 52, 36, 99, 86, 87, 112, 52, 88, 97, 78, 85, 56, 97, 
   52, 118, 49, 117, 77, 82, 117, 109, 50, 83, 79, 48, 50, 54, 66, 87, 76, 
   73, 111, 81, 77, 68, 47, 84, 88, 103, 53, 117, 90, 86, 46, 48, 80, 46, 
   117, 79, 56, 109, 51, 89, 69, 109]

/-- The reference test vector with the final salt character (offset 28) changed from the canonical letter to the next alphabet character, which differs only in the discarded low bits. -/
def VECTOR_SALT_P : List Nat :=
  [36, 50, 98, 36, 48, 52, 36, 99, 86, 87, 112, 52, 88, 97, 78, 85, 56, 97, 
   52, 118, 49, 117, 77, 82, 117, 109, 50, 83, 80, 48, 50, 54, 66, 87, 76, 
   73, 111, 81, 77, 68, 47, 84, 88, 103, 53, 117, 90, 86, 46, 48, 80, 46, 
   117, 79, 56, 109, 51, 89, 69, 109]

/-- The reference test vector with the separator byte at offset 6 changed to a lowercase letter x. -/
def VECTOR_X6 : List Nat :=
  [36, 50, 98, 36, 48, 52, 120, 99, 86, 87, 112, 52, 88, 97, 78, 85, 56, 
   97, 52, 118, 49, 117, 77, 82, 117, 109, 50, 83, 79, 48, 50, 54, 66, 87, 
   76, 73, 111, 81, 77, 68, 47, 84, 88, 103, 53, 117, 90, 86, 46, 48, 80, 
   46, 117, 79, 56, 109, 51, 89, 69, 109]

/-! ## Bridging lemmas: `u8` bitwise operations as arithmetic -/

theorem shr2_eq : ∀ b, b < 256 → b >>> 2 = b / 4 := by decide

theorem shr4_eq : ∀ b, b < 256 → b >>> 4 = b / 16 := by decide

theorem shr6_eq : ∀ b, b < 256 → b >>> 6 = b / 64 := by decide

theorem and3_eq : ∀ b, b < 256 → b &&& 3 = b % 4 := by decide

theorem and15_eq : ∀ b, b < 256 → b &&& 15 = b % 16 := by decide

theorem and63_eq : ∀ b, b < 256 → b &&& 63 = b % 64 := by decide

theorem shl4_small : ∀ x, x < 4 → (x <<< 4) % 256 = x * 16 := by decide

theorem shl2_small : ∀ x, x < 16 → (x <<< 2) % 256 = x * 4 := by decide

theorem dshl2 : ∀ x, x < 64 → (x <<< 2) % 256 = x * 4 := by decide

theorem dshl4 : ∀ x, x < 64 → (x <<< 4) % 256 = x % 16 * 16 := by decide

theorem dshl6 : ∀ x, x < 64 → (x <<< 6) % 256 = x % 4 * 64 := by decide

theorem orMul4 : ∀ x, x < 64 → ∀ y, y < 4 → (x * 4) ||| y = x * 4 + y := by decide

theorem orMul16 : ∀ x, x < 16 → ∀ y, y < 16 → (x * 16) ||| y = x * 16 + y := by
  decide

theorem orMul64 : ∀ x, x < 4 → ∀ y, y < 64 → (x * 64) ||| y = x * 64 + y := by
  decide

/-- The character written for the top 6 bits of the first byte of a group. -/
theorem enc0_eq (b0 : Nat) (h0 : b0 < 256) : b0 >>> 2 = b0 / 4 := shr2_eq b0 h0

/-- The second character of a group, as arithmetic. -/
theorem enc1_eq (b0 b1 : Nat) (h0 : b0 < 256) (h1 : b1 < 256) :
    (((b0 &&& 3) <<< 4) % 256) ||| (b1 >>> 4) = b0 % 4 * 16 + b1 / 16 := by
  rw [and3_eq b0 h0, shl4_small (b0 % 4) (Nat.mod_lt b0 (by omega)),
    shr4_eq b1 h1, orMul16 (b0 % 4) (by omega) (b1 / 16) (by omega)]

/-- The second character of a 1-byte remainder, as arithmetic. -/
theorem enc1r_eq (b0 : Nat) (h0 : b0 < 256) :
    ((b0 &&& 3) <<< 4) % 256 = b0 % 4 * 16 := by
  rw [and3_eq b0 h0, shl4_small (b0 % 4) (Nat.mod_lt b0 (by omega))]

/-- The third character of a group, as arithmetic. -/
theorem enc2_eq (b1 b2 : Nat) (h1 : b1 < 256) (h2 : b2 < 256) :
    (((b1 &&& 15) <<< 2) % 256) ||| (b2 >>> 6) = b1 % 16 * 4 + b2 / 64 := by
  rw [and15_eq b1 h1, shl2_small (b1 % 16) (Nat.mod_lt b1 (by omega)),
    shr6_eq b2 h2, orMul4 (b1 % 16) (by omega) (b2 / 64) (by omega)]

/-- The third character of a 2-byte remainder, as arithmetic. -/
theorem enc2r_eq (b1 : Nat) (h1 : b1 < 256) :
    ((b1 &&& 15) <<< 2) % 256 = b1 % 16 * 4 := by
  rw [and15_eq b1 h1, shl2_small (b1 % 16) (Nat.mod_lt b1 (by omega))]

/-- The first decoded byte of a group, as arithmetic. -/
theorem dec0_eq (i j : Nat) (hi : i < 64) (hj : j < 64) :
    ((i <<< 2) % 256) ||| (j >>> 4) = i * 4 + j / 16 := by
  rw [dshl2 i hi, shr4_eq j (by omega), orMul4 i hi (j / 16) (by omega)]

/-- The second decoded byte of a group, as arithmetic. -/
theorem dec1_eq (i j : Nat) (hi : i < 64) (hj : j < 64) :
    ((i <<< 4) % 256) ||| (j >>> 2) = i % 16 * 16 + j / 4 := by
  rw [dshl4 i hi, shr2_eq j (by omega),
    orMul16 (i % 16) (Nat.mod_lt i (by omega)) (j / 4) (by omega)]

/-- The third decoded byte of a group, as arithmetic. -/
theorem dec2_eq (i j : Nat) (hi : i < 64) (hj : j < 64) :
    ((i <<< 6) % 256) ||| j = i % 4 * 64 + j := by
  rw [dshl6 i hi, orMul64 (i % 4) (Nat.mod_lt i (by omega)) j hj]

/-! ## Alphabet table facts -/

deriving instance DecidableEq for Except

/-- The reverse table inverts the forward table on every 6-bit value. -/
theorem index_for_char_at : ∀ v, v < 64 →
    base64.index_for (base64.char_at v) = .ok v := by decide

/-- For every byte, `index_for` either rejects it or returns `idxOf c`,
which is a 6-bit value whose `char_at` is `c` again. -/
theorem idxOf_spec : ∀ c, c < 256 →
    base64.index_for c = .error .InvalidCharacter ∨
      (base64.index_for c = .ok (idxOf c) ∧ idxOf c < 64 ∧
        base64.char_at (idxOf c) = c) := by decide

/-- Unpacking a successful `index_for`: the index is `idxOf c`, is below 64,
and maps back to `c` under `char_at`. -/
theorem index_ok_elim (c i : Nat) (hc : c < 256)
    (h : base64.index_for c = .ok i) :
    i = idxOf c ∧ i < 64 ∧ base64.char_at i = c := by
  rcases idxOf_spec c hc with hbad | ⟨hok, hlt, hchar⟩
  · rw [h] at hbad; cases hbad
  · rw [h] at hok
    cases hok
    exact ⟨rfl, hlt, hchar⟩

/-- The value of `char_at` at a 6-bit index is an ASCII byte. -/
theorem char_at_lt : ∀ v, v < 64 → base64.char_at v < 256 := by decide

/-! ## Buffer-level characterization of the codec -/

/-- The function `encode` emits `ceil(4n/3)` characters for `n` input bytes. -/
theorem encodeList_length : ∀ b : List Nat,
    (base64.encodeList b).length = (4 * b.length + 2) / 3
  | [] => by simp [base64.encodeList]
  | [b0] => by simp [base64.encodeList]
  | [b0, b1] => by simp [base64.encodeList]
  | b0 :: b1 :: b2 :: rest => by
    have ih := encodeList_length rest
    simp only [base64.encodeList, List.length_cons, ih]
    omega

/-- With a buffer at least as long as the output, `encode` succeeds and the
final buffer is the emitted characters followed by the untouched tail. -/
theorem encode_some : ∀ b buf : List Nat,
    (base64.encodeList b).length ≤ buf.length →
    base64.encode b buf =
      some (base64.encodeList b ++ buf.drop (base64.encodeList b).length)
  | [], buf, _ => by simp [base64.encode, base64.encodeList]
  | [b0], buf, h => by
    rcases buf with _ | ⟨t0, _ | ⟨t1, buf⟩⟩ <;>
      simp [base64.encodeList, List.length] at h ⊢ <;>
      simp [base64.encode, base64.encodeList]
  | [b0, b1], buf, h => by
    rcases buf with _ | ⟨t0, _ | ⟨t1, _ | ⟨t2, buf⟩⟩⟩ <;>
      simp [base64.encodeList, List.length] at h ⊢ <;>
      simp [base64.encode, base64.encodeList]
  | b0 :: b1 :: b2 :: rest, buf, h => by
    rcases buf with _ | ⟨t0, _ | ⟨t1, _ | ⟨t2, _ | ⟨t3, buf⟩⟩⟩⟩ <;>
      simp only [base64.encodeList, List.length_cons, List.length_nil] at h <;>
      try omega
    have ih := encode_some rest buf (by omega)
    simp only [base64.encode, ih, base64.encodeList,
      List.length_cons, List.cons_append, Nat.add_succ, List.drop_succ_cons,
      Nat.add_zero, List.drop]
    rfl

/-- With a buffer strictly shorter than the output, `encode` hits the end of
the output iterator and panics. -/
theorem encode_none : ∀ b buf : List Nat,
    buf.length < (base64.encodeList b).length →
    base64.encode b buf = none
  | [], buf, h => by simp [base64.encodeList] at h
  | [b0], buf, h => by
    simp only [base64.encodeList, List.length_cons, List.length_nil] at h
    rcases buf with _ | ⟨t0, _ | ⟨t1, buf⟩⟩
    · simp [base64.encode]
    · simp [base64.encode]
    · simp at h; omega
  | [b0, b1], buf, h => by
    simp only [base64.encodeList, List.length_cons, List.length_nil] at h
    rcases buf with _ | ⟨t0, _ | ⟨t1, _ | ⟨t2, buf⟩⟩⟩
    · simp [base64.encode]
    · simp [base64.encode]
    · simp [base64.encode]
    · simp at h; omega
  | b0 :: b1 :: b2 :: rest, buf, h => by
    simp only [base64.encodeList, List.length_cons] at h
    rcases buf with _ | ⟨t0, _ | ⟨t1, _ | ⟨t2, _ | ⟨t3, buf⟩⟩⟩⟩
    · simp [base64.encode]
    · simp [base64.encode]
    · simp [base64.encode]
    · simp [base64.encode]
    · have ih := encode_none rest buf (by simp at h; omega)
      simp [base64.encode, ih]

/-- A successful `decode` of `n` characters yields `floor(3n/4)` bytes. -/
theorem decodeList_length : ∀ cs out : List Nat,
    base64.decodeList cs = .ok out → out.length = 3 * cs.length / 4
  | [], out, h => by
    simp only [base64.decodeList] at h
    cases h
    rfl
  | [_], out, h => by simp [base64.decodeList] at h
  | [c0, c1], out, h => by
    cases hi0 : base64.index_for c0 with
    | error e => simp [base64.decodeList, hi0] at h
    | ok i0 =>
      cases hi1 : base64.index_for c1 with
      | error e => simp [base64.decodeList, hi0, hi1] at h
      | ok i1 =>
        simp only [base64.decodeList, hi0, hi1] at h
        cases h
        simp
  | [c0, c1, c2], out, h => by
    cases hi0 : base64.index_for c0 with
    | error e => simp [base64.decodeList, hi0] at h
    | ok i0 =>
      cases hi1 : base64.index_for c1 with
      | error e => simp [base64.decodeList, hi0, hi1] at h
      | ok i1 =>
        cases hi2 : base64.index_for c2 with
        | error e => simp [base64.decodeList, hi0, hi1, hi2] at h
        | ok i2 =>
          simp only [base64.decodeList, hi0, hi1, hi2] at h
          cases h
          simp
  | c0 :: c1 :: c2 :: c3 :: rest, out, h => by
    cases hi0 : base64.index_for c0 with
    | error e => simp [base64.decodeList, hi0] at h
    | ok i0 =>
      cases hi1 : base64.index_for c1 with
      | error e => simp [base64.decodeList, hi0, hi1] at h
      | ok i1 =>
        cases hi2 : base64.index_for c2 with
        | error e => simp [base64.decodeList, hi0, hi1, hi2] at h
        | ok i2 =>
          cases hi3 : base64.index_for c3 with
          | error e => simp [base64.decodeList, hi0, hi1, hi2, hi3] at h
          | ok i3 =>
            simp only [base64.decodeList, hi0, hi1, hi2, hi3] at h
            cases hrest : base64.decodeList rest with
            | error e => rw [hrest] at h; simp [Except.map] at h
            | ok tail =>
              rw [hrest] at h
              simp only [Except.map] at h
              cases h
              have ih := decodeList_length rest tail hrest
              simp only [List.length_cons, ih]
              omega

/-- With a buffer of at least `floor(3n/4)` cells, `decode` never panics and
computes `decodeList`, the written bytes followed by the untouched tail of
the buffer. -/
theorem decode_eq : ∀ cs buf : List Nat, 3 * cs.length / 4 ≤ buf.length →
    base64.decode cs buf =
      some ((base64.decodeList cs).map fun out => out ++ buf.drop out.length)
  | [], buf, _ => by simp [base64.decode, base64.decodeList, Except.map]
  | [c], buf, _ => by simp [base64.decode, base64.decodeList, Except.map]
  | [c0, c1], buf, h => by
    cases hi0 : base64.index_for c0 with
    | error e => simp [base64.decode, base64.decodeList, hi0, Except.map]
    | ok i0 =>
      cases hi1 : base64.index_for c1 with
      | error e => simp [base64.decode, base64.decodeList, hi0, hi1, Except.map]
      | ok i1 =>
        rcases buf with _ | ⟨t0, buf⟩
        · exfalso
          simp only [List.length_cons, List.length_nil] at h
          omega
        · simp [base64.decode, base64.decodeList, hi0, hi1, Except.map]
  | [c0, c1, c2], buf, h => by
    cases hi0 : base64.index_for c0 with
    | error e => simp [base64.decode, base64.decodeList, hi0, Except.map]
    | ok i0 =>
      cases hi1 : base64.index_for c1 with
      | error e => simp [base64.decode, base64.decodeList, hi0, hi1, Except.map]
      | ok i1 =>
        cases hi2 : base64.index_for c2 with
        | error e =>
          simp [base64.decode, base64.decodeList, hi0, hi1, hi2, Except.map]
        | ok i2 =>
          rcases buf with _ | ⟨t0, _ | ⟨t1, buf⟩⟩
          · exfalso
            simp only [List.length_cons, List.length_nil] at h
            omega
          · exfalso
            simp only [List.length_cons, List.length_nil] at h
            omega
          · simp [base64.decode, base64.decodeList, hi0, hi1, hi2, Except.map]
  | c0 :: c1 :: c2 :: c3 :: rest, buf, h => by
    cases hi0 : base64.index_for c0 with
    | error e => simp [base64.decode, base64.decodeList, hi0, Except.map]
    | ok i0 =>
      cases hi1 : base64.index_for c1 with
      | error e => simp [base64.decode, base64.decodeList, hi0, hi1, Except.map]
      | ok i1 =>
        cases hi2 : base64.index_for c2 with
        | error e =>
          simp [base64.decode, base64.decodeList, hi0, hi1, hi2, Except.map]
        | ok i2 =>
          cases hi3 : base64.index_for c3 with
          | error e =>
            simp [base64.decode, base64.decodeList, hi0, hi1, hi2, hi3,
              Except.map]
          | ok i3 =>
            rcases buf with _ | ⟨t0, _ | ⟨t1, _ | ⟨t2, buf⟩⟩⟩
            · exfalso
              simp only [List.length_cons, List.length_nil] at h
              omega
            · exfalso
              simp only [List.length_cons, List.length_nil] at h
              omega
            · exfalso
              simp only [List.length_cons, List.length_nil] at h
              omega
            · have ih := decode_eq rest buf
                (by simp only [List.length_cons] at h ⊢; omega)
              simp only [base64.decode, base64.decodeList, hi0, hi1, hi2, hi3,
                ih, Option.map_some]
              cases hrest : base64.decodeList rest with
              | error e => simp [Except.map]
              | ok tail =>
                simp only [Except.map, List.length_cons, Nat.add_succ,
                  List.drop_succ_cons, Nat.add_zero, List.cons_append]
                rfl

/-! ## Round trip and canonical decoding -/

/-- Decoding the encoding of any byte sequence recovers it exactly. -/
theorem decodeList_encodeList : ∀ b : List Nat, (∀ x ∈ b, x < 256) →
    base64.decodeList (base64.encodeList b) = .ok b
  | [], _ => by simp [base64.encodeList, base64.decodeList]
  | [b0], h => by
    have h0 : b0 < 256 := h b0 (by simp)
    rw [base64.encodeList, enc0_eq b0 h0, enc1r_eq b0 h0]
    have hv0 : b0 / 4 < 64 := by omega
    have hv1 : b0 % 4 * 16 < 64 := by omega
    simp only [base64.decodeList, index_for_char_at _ hv0,
      index_for_char_at _ hv1, dec0_eq _ _ hv0 hv1]
    have : b0 / 4 * 4 + b0 % 4 * 16 / 16 = b0 := by omega
    rw [this]
  | [b0, b1], h => by
    have h0 : b0 < 256 := h b0 (by simp)
    have h1 : b1 < 256 := h b1 (by simp)
    rw [base64.encodeList, enc0_eq b0 h0, enc1_eq b0 b1 h0 h1, enc2r_eq b1 h1]
    have hv0 : b0 / 4 < 64 := by omega
    have hv1 : b0 % 4 * 16 + b1 / 16 < 64 := by omega
    have hv2 : b1 % 16 * 4 < 64 := by omega
    simp only [base64.decodeList, index_for_char_at _ hv0,
      index_for_char_at _ hv1, index_for_char_at _ hv2,
      dec0_eq _ _ hv0 hv1, dec1_eq _ _ hv1 hv2]
    have e0 : b0 / 4 * 4 + (b0 % 4 * 16 + b1 / 16) / 16 = b0 := by omega
    have e1 : (b0 % 4 * 16 + b1 / 16) % 16 * 16 + b1 % 16 * 4 / 4 = b1 := by
      omega
    rw [e0, e1]
  | b0 :: b1 :: b2 :: rest, h => by
    have h0 : b0 < 256 := h b0 (by simp)
    have h1 : b1 < 256 := h b1 (by simp)
    have h2 : b2 < 256 := h b2 (by simp)
    have ih := decodeList_encodeList rest fun x hx => h x (by simp [hx])
    rw [base64.encodeList, enc0_eq b0 h0, enc1_eq b0 b1 h0 h1,
      enc2_eq b1 b2 h1 h2, and63_eq b2 h2]
    have hv0 : b0 / 4 < 64 := by omega
    have hv1 : b0 % 4 * 16 + b1 / 16 < 64 := by omega
    have hv2 : b1 % 16 * 4 + b2 / 64 < 64 := by omega
    have hv3 : b2 % 64 < 64 := by omega
    simp only [base64.decodeList, index_for_char_at _ hv0,
      index_for_char_at _ hv1, index_for_char_at _ hv2,
      index_for_char_at _ hv3, ih, Except.map,
      dec0_eq _ _ hv0 hv1, dec1_eq _ _ hv1 hv2, dec2_eq _ _ hv2 hv3]
    have e0 : b0 / 4 * 4 + (b0 % 4 * 16 + b1 / 16) / 16 = b0 := by omega
    have e1 : (b0 % 4 * 16 + b1 / 16) % 16 * 16 +
        (b1 % 16 * 4 + b2 / 64) / 4 = b1 := by omega
    have e2 : (b1 % 16 * 4 + b2 / 64) % 4 * 64 + b2 % 64 = b2 := by omega
    rw [e0, e1, e2]

/-- A valid character admits an index below 64. -/
theorem validChar_elim (c : Nat) (h : validChar c = true) :
    base64.index_for c = .ok (idxOf c) := by
  unfold validChar at h
  unfold idxOf
  cases hc : base64.index_for c with
  | error e => rw [hc] at h; cases h
  | ok i => rfl

/-- On all-valid input whose length is not 1 mod 4, decoding succeeds. -/
theorem decodeList_valid_ok : ∀ cs : List Nat,
    (∀ c ∈ cs, validChar c = true) → cs.length % 4 ≠ 1 →
    ∃ out, base64.decodeList cs = .ok out
  | [], _, _ => ⟨[], rfl⟩
  | [c], _, hlen => by simp at hlen
  | [c0, c1], h, _ => by
    simp only [base64.decodeList, validChar_elim c0 (h c0 (by simp)),
      validChar_elim c1 (h c1 (by simp))]
    exact ⟨_, rfl⟩
  | [c0, c1, c2], h, _ => by
    simp only [base64.decodeList, validChar_elim c0 (h c0 (by simp)),
      validChar_elim c1 (h c1 (by simp)), validChar_elim c2 (h c2 (by simp))]
    exact ⟨_, rfl⟩
  | c0 :: c1 :: c2 :: c3 :: rest, h, hlen => by
    have hr : rest.length % 4 ≠ 1 := by
      simp only [List.length_cons] at hlen ⊢
      omega
    obtain ⟨out, hout⟩ :=
      decodeList_valid_ok rest (fun c hc => h c (by simp [hc])) hr
    simp only [base64.decodeList, validChar_elim c0 (h c0 (by simp)),
      validChar_elim c1 (h c1 (by simp)), validChar_elim c2 (h c2 (by simp)),
      validChar_elim c3 (h c3 (by simp)), hout, Except.map]
    exact ⟨_, rfl⟩

/-- On input of length 1 mod 4 whose complete leading groups are valid,
decoding fails with `Length`. -/
theorem decodeList_len1 : ∀ cs : List Nat,
    (∀ c ∈ cs.take (4 * (cs.length / 4)), validChar c = true) →
    cs.length % 4 = 1 → base64.decodeList cs = .error .Length
  | [], _, hlen => by simp at hlen
  | [c], _, _ => rfl
  | [c0, c1], _, hlen => by simp at hlen
  | [c0, c1, c2], _, hlen => by simp at hlen
  | c0 :: c1 :: c2 :: c3 :: rest, h, hlen => by
    have hlen' : rest.length % 4 = 1 := by
      simp only [List.length_cons] at hlen
      omega
    have hq : (c0 :: c1 :: c2 :: c3 :: rest).length / 4 =
        rest.length / 4 + 1 := by
      simp only [List.length_cons]
      omega
    rw [hq] at h
    have hmem : ∀ c ∈ c0 :: c1 :: c2 :: c3 :: rest.take (4 * (rest.length / 4)),
        validChar c = true := by
      intro c hc
      apply h
      have : 4 * (rest.length / 4 + 1) = 4 * (rest.length / 4) + 1 + 1 + 1 + 1 := by
        omega
      rw [this]
      simp only [List.take_succ_cons]
      simpa using hc
    have ih := decodeList_len1 rest (fun c hc => hmem c (by simp [hc])) hlen'
    simp only [base64.decodeList, validChar_elim c0 (hmem c0 (by simp)),
      validChar_elim c1 (hmem c1 (by simp)),
      validChar_elim c2 (hmem c2 (by simp)),
      validChar_elim c3 (hmem c3 (by simp)), ih, Except.map]

/-- A successfully decoded text whose trailing partial group is canonical is
recovered exactly by re-encoding the decoded bytes (and those bytes are
genuine `u8` values). -/
theorem encode_of_decode : ∀ cs out : List Nat, (∀ c ∈ cs, c < 256) →
    base64.decodeList cs = .ok out → canonicalTail cs = true →
    base64.encodeList out = cs ∧ ∀ x ∈ out, x < 256
  | [], out, _, h, _ => by
    simp only [base64.decodeList] at h
    cases h
    simp [base64.encodeList]
  | [c], out, _, h, _ => by simp [base64.decodeList] at h
  | [c0, c1], out, hlt, h, hcan => by
    have hc0 : c0 < 256 := hlt c0 (by simp)
    have hc1 : c1 < 256 := hlt c1 (by simp)
    cases hi0 : base64.index_for c0 with
    | error e => simp [base64.decodeList, hi0] at h
    | ok i0 =>
      cases hi1 : base64.index_for c1 with
      | error e => simp [base64.decodeList, hi0, hi1] at h
      | ok i1 =>
        obtain ⟨hid0, hlt0, hch0⟩ := index_ok_elim c0 i0 hc0 hi0
        obtain ⟨hid1, hlt1, hch1⟩ := index_ok_elim c1 i1 hc1 hi1
        simp only [base64.decodeList, hi0, hi1] at h
        cases h
        have hz : i1 % 16 = 0 := by
          simp only [canonicalTail, beq_iff_eq] at hcan
          rw [← hid1] at hcan
          exact hcan
        rw [dec0_eq i0 i1 hlt0 hlt1]
        have hd0 : i0 * 4 + i1 / 16 < 256 := by omega
        constructor
        · rw [base64.encodeList, enc0_eq _ hd0, enc1r_eq _ hd0]
          have g0 : (i0 * 4 + i1 / 16) / 4 = i0 := by omega
          have g1 : (i0 * 4 + i1 / 16) % 4 * 16 = i1 := by omega
          rw [g0, g1, hch0, hch1]
        · intro x hx
          simp only [List.mem_singleton] at hx
          omega
  | [c0, c1, c2], out, hlt, h, hcan => by
    have hc0 : c0 < 256 := hlt c0 (by simp)
    have hc1 : c1 < 256 := hlt c1 (by simp)
    have hc2 : c2 < 256 := hlt c2 (by simp)
    cases hi0 : base64.index_for c0 with
    | error e => simp [base64.decodeList, hi0] at h
    | ok i0 =>
      cases hi1 : base64.index_for c1 with
      | error e => simp [base64.decodeList, hi0, hi1] at h
      | ok i1 =>
        cases hi2 : base64.index_for c2 with
        | error e => simp [base64.decodeList, hi0, hi1, hi2] at h
        | ok i2 =>
          obtain ⟨hid0, hlt0, hch0⟩ := index_ok_elim c0 i0 hc0 hi0
          obtain ⟨hid1, hlt1, hch1⟩ := index_ok_elim c1 i1 hc1 hi1
          obtain ⟨hid2, hlt2, hch2⟩ := index_ok_elim c2 i2 hc2 hi2
          simp only [base64.decodeList, hi0, hi1, hi2] at h
          cases h
          have hz : i2 % 4 = 0 := by
            simp only [canonicalTail, beq_iff_eq] at hcan
            rw [← hid2] at hcan
            exact hcan
          rw [dec0_eq i0 i1 hlt0 hlt1, dec1_eq i1 i2 hlt1 hlt2]
          have hd0 : i0 * 4 + i1 / 16 < 256 := by omega
          have hd1 : i1 % 16 * 16 + i2 / 4 < 256 := by omega
          constructor
          · rw [base64.encodeList, enc0_eq _ hd0, enc1_eq _ _ hd0 hd1,
              enc2r_eq _ hd1]
            have g0 : (i0 * 4 + i1 / 16) / 4 = i0 := by omega
            have g1 : (i0 * 4 + i1 / 16) % 4 * 16 +
                (i1 % 16 * 16 + i2 / 4) / 16 = i1 := by omega
            have g2 : (i1 % 16 * 16 + i2 / 4) % 16 * 4 = i2 := by omega
            rw [g0, g1, g2, hch0, hch1, hch2]
          · intro x hx
            simp only [List.mem_cons, List.mem_singleton] at hx
            rcases hx with rfl | rfl | hx
            · omega
            · omega
            · simp at hx
  | c0 :: c1 :: c2 :: c3 :: rest, out, hlt, h, hcan => by
    have hc0 : c0 < 256 := hlt c0 (by simp)
    have hc1 : c1 < 256 := hlt c1 (by simp)
    have hc2 : c2 < 256 := hlt c2 (by simp)
    have hc3 : c3 < 256 := hlt c3 (by simp)
    cases hi0 : base64.index_for c0 with
    | error e => simp [base64.decodeList, hi0] at h
    | ok i0 =>
      cases hi1 : base64.index_for c1 with
      | error e => simp [base64.decodeList, hi0, hi1] at h
      | ok i1 =>
        cases hi2 : base64.index_for c2 with
        | error e => simp [base64.decodeList, hi0, hi1, hi2] at h
        | ok i2 =>
          cases hi3 : base64.index_for c3 with
          | error e => simp [base64.decodeList, hi0, hi1, hi2, hi3] at h
          | ok i3 =>
            simp only [base64.decodeList, hi0, hi1, hi2, hi3] at h
            cases hrest : base64.decodeList rest with
            | error e => rw [hrest] at h; simp [Except.map] at h
            | ok tail =>
              rw [hrest] at h
              simp only [Except.map] at h
              cases h
              obtain ⟨hid0, hlt0, hch0⟩ := index_ok_elim c0 i0 hc0 hi0
              obtain ⟨hid1, hlt1, hch1⟩ := index_ok_elim c1 i1 hc1 hi1
              obtain ⟨hid2, hlt2, hch2⟩ := index_ok_elim c2 i2 hc2 hi2
              obtain ⟨hid3, hlt3, hch3⟩ := index_ok_elim c3 i3 hc3 hi3
              obtain ⟨ihenc, ihlt⟩ := encode_of_decode rest tail
                (fun c hc => hlt c (by simp [hc])) hrest
                (by simpa [canonicalTail] using hcan)
              rw [dec0_eq i0 i1 hlt0 hlt1, dec1_eq i1 i2 hlt1 hlt2,
                dec2_eq i2 i3 hlt2 hlt3]
              have hd0 : i0 * 4 + i1 / 16 < 256 := by omega
              have hd1 : i1 % 16 * 16 + i2 / 4 < 256 := by omega
              have hd2 : i2 % 4 * 64 + i3 < 256 := by omega
              constructor
              · rw [base64.encodeList, enc0_eq _ hd0, enc1_eq _ _ hd0 hd1,
                  enc2_eq _ _ hd1 hd2, and63_eq _ hd2]
                have g0 : (i0 * 4 + i1 / 16) / 4 = i0 := by omega
                have g1 : (i0 * 4 + i1 / 16) % 4 * 16 +
                    (i1 % 16 * 16 + i2 / 4) / 16 = i1 := by omega
                have g2 : (i1 % 16 * 16 + i2 / 4) % 16 * 4 +
                    (i2 % 4 * 64 + i3) / 64 = i2 := by omega
                have g3 : (i2 % 4 * 64 + i3) % 64 = i3 := by omega
                rw [g0, g1, g2, g3, hch0, hch1, hch2, hch3, ihenc]
              · intro x hx
                simp only [List.mem_cons] at hx
                rcases hx with rfl | rfl | rfl | hx
                · omega
                · omega
                · omega
                · exact ihlt x hx

/-! ## Record layer lemmas -/

/-- Decoding into a zeroed buffer of exactly the output size never panics
and returns exactly the decoded bytes. -/
theorem decode_exact (cs : List Nat) (n : Nat) (h : 3 * cs.length / 4 = n) :
    base64.decode cs (List.replicate n 0) = some (base64.decodeList cs) := by
  have hd := decode_eq cs (List.replicate n 0) (by simp [h])
  rw [hd]
  congr 1
  cases hout : base64.decodeList cs with
  | error e => simp [Except.map]
  | ok out =>
    have hl := decodeList_length cs out hout
    have hnil : (List.replicate n 0).drop out.length = [] :=
      List.drop_eq_nil_of_le (by simp [hl, h])
    simp [Except.map, hnil]

/-- Unfolds `from_str` on a correctly sized input with an accepted prefix, with both
base64 buffers resolved: the remaining behaviour is a function of the
work-factor field and the two decoded regions. -/
theorem from_str_eq (s : List Nat) (hlen : s.length = 60)
    (hpre : prefix_ok s = true) :
    from_str s = some
      (match (get46 s).bind fun p => (parse_u32_2 p.1 p.2).bind WorkFactor.exp
       with
       | none => .error .WorkFactor
       | some wf =>
         match base64.decodeList ((s.drop 7).take 22) with
         | .error _ => .error .Salt
         | .ok saltBytes =>
           match base64.decodeList ((s.drop 29).take 31) with
           | .error _ => .error .Hash
           | .ok hashBytes =>
             .ok ⟨wf, Salt.from_bytes saltBytes, hashBytes⟩) := by
  have hsalt : ((s.drop 7).take 22).length = 22 := by
    rw [List.length_take, List.length_drop, hlen]
    rfl
  have hhash : ((s.drop 29).take 31).length = 31 := by
    rw [List.length_take, List.length_drop, hlen]
    rfl
  unfold from_str
  rw [if_neg (by omega), if_neg (by simp [hpre]),
    decode_exact _ 16 (by omega), decode_exact _ 23 (by omega)]
  cases (get46 s).bind fun p => (parse_u32_2 p.1 p.2).bind WorkFactor.exp with
  | none => rfl
  | some wf =>
    cases base64.decodeList ((s.drop 7).take 22) with
    | error e => rfl
    | ok saltBytes =>
      cases base64.decodeList ((s.drop 29).take 31) with
      | error e => rfl
      | ok hashBytes => rfl

/-- Parsing rejects any input that is not 60 bytes long. -/
theorem from_str_len (s : List Nat) (h : s.length ≠ 60) :
    from_str s = some (.error .Length) := by
  unfold from_str
  rw [if_pos h]

/-- Parsing rejects an unaccepted prefix on a 60-byte input. -/
theorem from_str_pre (s : List Nat) (hlen : s.length = 60)
    (h : prefix_ok s = false) :
    from_str s = some (.error .BadPrefix) := by
  unfold from_str
  rw [if_neg (by omega), if_pos (by simp [h])]

/-- Inversion of the two-character unsigned parse. -/
theorem parse_u32_2_eq_some (a b n : Nat) :
    parse_u32_2 a b = some n ↔
      ((isAsciiDigit a = true ∧ isAsciiDigit b = true ∧
        n = 10 * (a - 48) + (b - 48)) ∨
       (a = 43 ∧ isAsciiDigit b = true ∧ n = b - 48)) := by
  unfold parse_u32_2
  split_ifs with h1 h2
  · simp only [Bool.and_eq_true] at h1
    simp only [Option.some.injEq]
    constructor
    · intro h
      exact Or.inl ⟨h1.1, h1.2, h.symm⟩
    · rintro (⟨_, _, rfl⟩ | ⟨rfl, hb, rfl⟩)
      · rfl
      · simp [isAsciiDigit] at h1
  · simp only [Bool.and_eq_true, beq_iff_eq] at h2
    simp only [Bool.and_eq_true] at h1
    simp only [Option.some.injEq]
    constructor
    · intro h
      exact Or.inr ⟨h2.1, h2.2, h.symm⟩
    · rintro (⟨ha, hb, rfl⟩ | ⟨rfl, hb, rfl⟩)
      · exact absurd ⟨ha, hb⟩ h1
      · rfl
  · simp only [Bool.and_eq_true, beq_iff_eq] at h1 h2
    constructor
    · intro h
      cases h
    · rintro (⟨ha, hb, rfl⟩ | ⟨rfl, hb, rfl⟩)
      · exact absurd ⟨ha, hb⟩ h1
      · exact absurd ⟨rfl, hb⟩ h2

/-- Unfolding of the boundary-checked field accessor. -/
theorem get46_eq (s : List Nat) :
    get46 s = if isCont (s.getD 6 0) = true then none
      else some (s.getD 4 0, s.getD 5 0) := rfl

/-! ## Claim theorems: codec -/

/-- C1: encoding any byte sequence into a buffer of length `ceil(4n/3)` and
then decoding the produced text into a buffer of length `n` succeeds and
reproduces exactly the original bytes. -/
theorem c1_encode_then_decode (b buf out : List Nat)
    (hb : ∀ x ∈ b, x < 256)
    (hbuf : buf.length = (4 * b.length + 2) / 3)
    (hout : out.length = b.length) :
    ∃ e, base64.encode b buf = some e ∧
      base64.decode e out = some (.ok b) := by
  have hlen := encodeList_length b
  have hnil : buf.drop (base64.encodeList b).length = [] :=
    List.drop_eq_nil_of_le (by omega)
  have henc := encode_some b buf (by omega)
  rw [hnil, List.append_nil] at henc
  refine ⟨base64.encodeList b, henc, ?_⟩
  have hdec := decode_eq (base64.encodeList b) out (by omega)
  rw [decodeList_encodeList b hb] at hdec
  have hnil2 : out.drop b.length = [] := List.drop_eq_nil_of_le (by omega)
  simpa [Except.map, hnil2] using hdec

/-- Witness for C1 at a concrete three-byte input. -/
theorem c1_witness :
    ∃ e, base64.encode [1, 2, 3] [0, 0, 0, 0] = some e ∧
      base64.decode e [0, 0, 0] = some (.ok [1, 2, 3]) :=
  c1_encode_then_decode [1, 2, 3] [0, 0, 0, 0] [0, 0, 0]
    (by decide) (by decide) (by decide)

/-- C5: the alphabet tables are exact inverses on 6-bit values, and every
byte outside the 64-character alphabet is rejected with
`InvalidCharacter`. -/
theorem c5_alphabet_exact_inverse :
    (∀ v, v < 64 → base64.index_for (base64.char_at v) = .ok v) ∧
    (∀ c, c < 256 → c ∉ base64.ALPHABET →
      base64.index_for c = .error .InvalidCharacter) := by
  refine ⟨index_for_char_at, ?_⟩
  decide

/-- Witness for C5 at value 5 and non-alphabet byte 63. -/
theorem c5_witness :
    base64.index_for (base64.char_at 5) = .ok 5 ∧
    base64.index_for 63 = .error .InvalidCharacter :=
  ⟨c5_alphabet_exact_inverse.1 5 (by decide),
   c5_alphabet_exact_inverse.2 63 (by decide) (by decide)⟩

/-- C6 (amended): on input of length 1 mod 4 whose complete leading
4-character groups consist of valid alphabet characters, `decode` into a
correctly sized buffer fails with `Length`; an invalid character inside a
complete group is reported as `InvalidCharacter` before the length of the
remainder is examined. -/
theorem c6_length_error (cs buf : List Nat)
    (hval : ∀ c ∈ cs.take (4 * (cs.length / 4)), validChar c = true)
    (hlen : cs.length % 4 = 1)
    (hbuf : buf.length = 3 * cs.length / 4) :
    base64.decode cs buf = some (.error .Length) := by
  have hd := decode_eq cs buf (by omega)
  rw [decodeList_len1 cs hval hlen] at hd
  simpa [Except.map] using hd

/-- Witness for C6 at a concrete 5-character valid input. -/
theorem c6_witness :
    base64.decode [97, 98, 99, 100, 101] [0, 0, 0] =
      some (.error .Length) :=
  c6_length_error [97, 98, 99, 100, 101] [0, 0, 0]
    (by decide) (by decide) (by decide)

/-- Counterexample to C6 as stated: a length-5 input whose complete leading
group contains the invalid byte 63 fails with `InvalidCharacter`, not
`Length`, although its length is 1 mod 4 and the buffer is correctly
sized. -/
theorem c6_counterexample :
    [97, 63, 99, 100, 101].length % 4 = 1 ∧
    [0, 0, 0].length = 3 * [97, 63, 99, 100, 101].length / 4 ∧
    base64.decode [97, 63, 99, 100, 101] [0, 0, 0] =
      some (.error .InvalidCharacter) ∧
    base64.decode [97, 63, 99, 100, 101] [0, 0, 0] ≠
      some (.error .Length) := by decide

/-- C7: a trailing group of 2 valid characters decodes to 1 byte and a
trailing group of 3 valid characters to 2 bytes (never erroring on the
discarded low bits of the final character), and two distinct all-valid
inputs of equal length can decode successfully to the same bytes. -/
theorem c7_lenient_trailing_groups :
    (∀ cs : List Nat, (∀ c ∈ cs, validChar c = true) → cs.length % 4 = 2 →
      ∃ out, base64.decodeList cs = .ok out ∧
        out.length = 3 * (cs.length / 4) + 1) ∧
    (∀ cs : List Nat, (∀ c ∈ cs, validChar c = true) → cs.length % 4 = 3 →
      ∃ out, base64.decodeList cs = .ok out ∧
        out.length = 3 * (cs.length / 4) + 2) ∧
    (base64.decode [46, 46] [0] = some (.ok [0]) ∧
      base64.decode [46, 47] [0] = some (.ok [0]) ∧
      [46, 46] ≠ [46, 47]) := by
  refine ⟨?_, ?_, by decide⟩
  · intro cs hval hlen
    obtain ⟨out, hout⟩ := decodeList_valid_ok cs hval (by omega)
    refine ⟨out, hout, ?_⟩
    have := decodeList_length cs out hout
    omega
  · intro cs hval hlen
    obtain ⟨out, hout⟩ := decodeList_valid_ok cs hval (by omega)
    refine ⟨out, hout, ?_⟩
    have := decodeList_length cs out hout
    omega

/-- Witness for C7 at concrete 2- and 3-character inputs. -/
theorem c7_witness :
    (∃ out, base64.decodeList [46, 47] = .ok out ∧ out.length = 1) ∧
    (∃ out, base64.decodeList [46, 47, 65] = .ok out ∧ out.length = 2) :=
  ⟨c7_lenient_trailing_groups.1 [46, 47] (by decide) (by decide),
   c7_lenient_trailing_groups.2.1 [46, 47, 65] (by decide) (by decide)⟩

/-- C10: `encode` succeeds whenever the output buffer holds at least
`ceil(4n/3)` cells, filling exactly the first `ceil(4n/3)` cells with the
encoding and leaving the rest of the buffer unchanged; with a strictly
shorter buffer it panics. -/
theorem c10_encode_frame (b buf : List Nat) :
    ((4 * b.length + 2) / 3 ≤ buf.length →
      ∃ r, base64.encode b buf = some r ∧ r.length = buf.length ∧
        r.take ((4 * b.length + 2) / 3) = base64.encodeList b ∧
        r.drop ((4 * b.length + 2) / 3) = buf.drop ((4 * b.length + 2) / 3)) ∧
    (buf.length < (4 * b.length + 2) / 3 → base64.encode b buf = none) := by
  have hlen := encodeList_length b
  constructor
  · intro h
    refine ⟨base64.encodeList b ++ buf.drop (base64.encodeList b).length,
      encode_some b buf (by omega), ?_, ?_, ?_⟩
    · rw [List.length_append, List.length_drop]
      omega
    · rw [← hlen, List.take_left]
    · rw [← hlen, List.drop_left]
  · intro h
    exact encode_none b buf (by omega)

/-- C4: a 60-byte text is parsed identically under the three accepted
prefixes, and formatting always emits the canonical `$2b$` prefix. -/
theorem c4_prefix_equivalence :
    (∀ t : List Nat, t.length = 56 →
      from_str (PREFIX_2A ++ t) = from_str (PREFIX_2B ++ t) ∧
      from_str (PREFIX_2B ++ t) = from_str (PREFIX_2Y ++ t)) ∧
    (∀ h : Hash, h.salt.bytes.length = 16 → h.hash.length = 23 →
      ∃ l, to_formatted h = some l ∧ l.take 4 = PREFIX_2B) := by
  constructor
  · intro t ht
    have h2a : prefix_ok (PREFIX_2A ++ t) = true := by
      simp [prefix_ok, PREFIX_2A, PREFIX_2B, PREFIX_2Y, List.isPrefixOf]
    have h2b : prefix_ok (PREFIX_2B ++ t) = true := by
      simp [prefix_ok, PREFIX_2A, PREFIX_2B, PREFIX_2Y, List.isPrefixOf]
    have h2y : prefix_ok (PREFIX_2Y ++ t) = true := by
      simp [prefix_ok, PREFIX_2A, PREFIX_2B, PREFIX_2Y, List.isPrefixOf]
    constructor
    · rw [from_str_eq _ (by simp [PREFIX_2A, ht]) h2a,
        from_str_eq _ (by simp [PREFIX_2B, ht]) h2b]
      rfl
    · rw [from_str_eq _ (by simp [PREFIX_2B, ht]) h2b,
        from_str_eq _ (by simp [PREFIX_2Y, ht]) h2y]
      rfl
  · intro h hs hh
    have hse : (base64.encodeList h.salt.bytes).length = 22 := by
      rw [encodeList_length, hs]
    have hhe : (base64.encodeList h.hash).length = 31 := by
      rw [encodeList_length, hh]
    have e1 := encode_some h.salt.bytes (List.replicate 22 0) (by simp [hse])
    rw [hse] at e1
    have hnil1 : (List.replicate 22 (0 : Nat)).drop 22 = [] := rfl
    rw [hnil1, List.append_nil] at e1
    have e2 := encode_some h.hash (List.replicate 31 0) (by simp [hhe])
    rw [hhe] at e2
    have hnil2 : (List.replicate 31 (0 : Nat)).drop 31 = [] := rfl
    rw [hnil2, List.append_nil] at e2
    refine ⟨[36, 50, 98, 36, 48 + h.work_factor.log_rounds / 10,
      48 + h.work_factor.log_rounds % 10, 36] ++
      base64.encodeList h.salt.bytes ++ base64.encodeList h.hash, ?_, ?_⟩
    · unfold to_formatted
      rw [show h.salt.to_bytes = h.salt.bytes from rfl, e1, e2]
    · rfl

/-- Witness for C4 at a concrete suffix and a concrete record. -/
theorem c4_witness :
    from_str (PREFIX_2A ++ VECTOR_SALT_P.drop 4) =
      from_str (PREFIX_2B ++ VECTOR_SALT_P.drop 4) ∧
    ∃ l, to_formatted ⟨⟨4, by decide⟩, ⟨List.replicate 16 0⟩,
        List.replicate 23 0⟩ = some l ∧ l.take 4 = PREFIX_2B :=
  ⟨(c4_prefix_equivalence.1 (VECTOR_SALT_P.drop 4) (by decide)).1,
   c4_prefix_equivalence.2 _ (by decide) (by decide)⟩

/-- C3 (amended): with an accepted prefix, `from_str` fails with
`WorkFactor` exactly when the work-factor field does not resolve: byte 6
must not be a UTF-8 continuation byte (else `s.get(4..6)` is `None`), and
bytes 4..5 must parse as an unsigned decimal — either two digits, or a plus
sign followed by one digit, since Rust's integer parsing accepts an optional
leading plus — whose value the work-factor constructor accepts. -/
theorem c3_workfactor_error_iff (s : List Nat) (hlen : s.length = 60)
    (hpre : prefix_ok s = true) :
    from_str s = some (.error .WorkFactor) ↔
      ¬ (isCont (s.getD 6 0) = false ∧
        ∃ n, WorkFactor.exp n ≠ none ∧
          ((isAsciiDigit (s.getD 4 0) = true ∧ isAsciiDigit (s.getD 5 0) = true ∧
            n = 10 * (s.getD 4 0 - 48) + (s.getD 5 0 - 48)) ∨
           (s.getD 4 0 = 43 ∧ isAsciiDigit (s.getD 5 0) = true ∧
            n = s.getD 5 0 - 48))) := by
  rw [from_str_eq s hlen hpre]
  cases hch : (get46 s).bind fun p => (parse_u32_2 p.1 p.2).bind WorkFactor.exp
  case none =>
    simp only [Option.some.injEq, true_iff, iff_true]
    rintro ⟨hcont, n, hexp, hor⟩
    have hg : get46 s = some (s.getD 4 0, s.getD 5 0) := by
      rw [get46_eq, if_neg (by rw [hcont]; exact Bool.false_ne_true)]
    have hp : parse_u32_2 (s.getD 4 0) (s.getD 5 0) = some n :=
      (parse_u32_2_eq_some _ _ _).mpr hor
    rw [hg] at hch
    simp only [Option.bind] at hch
    rw [hp] at hch
    simp only [Option.bind] at hch
    exact hexp hch
  case some wf =>
    have hcond : isCont (s.getD 6 0) = false ∧
        ∃ n, WorkFactor.exp n ≠ none ∧
          ((isAsciiDigit (s.getD 4 0) = true ∧ isAsciiDigit (s.getD 5 0) = true ∧
            n = 10 * (s.getD 4 0 - 48) + (s.getD 5 0 - 48)) ∨
           (s.getD 4 0 = 43 ∧ isAsciiDigit (s.getD 5 0) = true ∧
            n = s.getD 5 0 - 48)) := by
      cases hg : get46 s with
      | none => rw [hg] at hch; cases hch
      | some p =>
        rw [hg] at hch
        simp only [Option.bind] at hch
        rw [get46_eq] at hg
        cases hic : isCont (s.getD 6 0) with
        | true => rw [if_pos hic] at hg; cases hg
        | false =>
          rw [if_neg (by rw [hic]; exact Bool.false_ne_true)] at hg
          cases hg
          cases hp : parse_u32_2 (s.getD 4 0) (s.getD 5 0) with
          | none => rw [hp] at hch; cases hch
          | some n =>
            rw [hp] at hch
            simp only [Option.bind] at hch
            exact ⟨rfl, n, by rw [hch]; simp,
              (parse_u32_2_eq_some _ _ _).mp hp⟩
    cases hsd : base64.decodeList ((s.drop 7).take 22) with
    | error e =>
      simp only [hsd]
      constructor
      · intro hcontr
        simp at hcontr
      · intro hcontr
        exact absurd hcond hcontr
    | ok saltBytes =>
      cases hhd : base64.decodeList ((s.drop 29).take 31) with
      | error e =>
        simp only [hhd]
        constructor
        · intro hcontr
          simp at hcontr
        · intro hcontr
          exact absurd hcond hcontr
      | ok hashBytes =>
        simp only [hsd, hhd]
        constructor
        · intro hcontr
          simp at hcontr
        · intro hcontr
          exact absurd hcond hcontr

/-- C9: formatting any well-formed record (16-byte salt, 23-byte digest,
log rounds at most 99) produces a 60-byte text that parses back to an equal
record. -/
theorem c9_format_then_parse (r : Hash)
    (hs : r.salt.bytes.length = 16) (hsb : ∀ x ∈ r.salt.bytes, x < 256)
    (hh : r.hash.length = 23) (hhb : ∀ x ∈ r.hash, x < 256)
    (h99 : r.work_factor.log_rounds ≤ 99) :
    ∃ f, to_formatted r = some f ∧ from_str f = some (.ok r) := by
  obtain ⟨⟨lr, hlr⟩, ⟨sb⟩, hsh⟩ := r
  dsimp only [Salt.to_bytes, WorkFactor.log_rounds] at hs hsb hh hhb h99 ⊢
  have hse : (base64.encodeList sb).length = 22 := by rw [encodeList_length, hs]
  have hhe : (base64.encodeList hsh).length = 31 := by
    rw [encodeList_length, hh]
  have e1 := encode_some sb (List.replicate 22 0) (by simp [hse])
  rw [hse, show (List.replicate 22 (0 : Nat)).drop 22 = [] from rfl,
    List.append_nil] at e1
  have e2 := encode_some hsh (List.replicate 31 0) (by simp [hhe])
  rw [hhe, show (List.replicate 31 (0 : Nat)).drop 31 = [] from rfl,
    List.append_nil] at e2
  have hfmt : to_formatted ⟨⟨lr, hlr⟩, ⟨sb⟩, hsh⟩ =
      some ([36, 50, 98, 36, 48 + lr / 10, 48 + lr % 10, 36] ++
        base64.encodeList sb ++ base64.encodeList hsh) := by
    unfold to_formatted
    dsimp only [Salt.to_bytes, WorkFactor.log_rounds]
    rw [e1, e2]
  refine ⟨_, hfmt, ?_⟩
  have hFlen : ([36, 50, 98, 36, 48 + lr / 10, 48 + lr % 10, 36] ++
      base64.encodeList sb ++ base64.encodeList hsh).length = 60 := by
    simp [hse, hhe]
  have hFpre : prefix_ok ([36, 50, 98, 36, 48 + lr / 10, 48 + lr % 10, 36] ++
      base64.encodeList sb ++ base64.encodeList hsh) = true := by
    simp [prefix_ok, PREFIX_2A, PREFIX_2B, PREFIX_2Y, List.isPrefixOf]
  rw [from_str_eq _ hFlen hFpre]
  have h6 : isCont (([36, 50, 98, 36, 48 + lr / 10, 48 + lr % 10, 36] ++
      base64.encodeList sb ++ base64.encodeList hsh).getD 6 0) = false := rfl
  have hp : parse_u32_2 (48 + lr / 10) (48 + lr % 10) = some lr := by
    unfold parse_u32_2
    rw [if_pos]
    · congr 1
      omega
    · simp only [isAsciiDigit, Bool.and_eq_true, decide_eq_true_eq,
        Bool.and_eq_true]
      omega
  have hwf : (get46 ([36, 50, 98, 36, 48 + lr / 10, 48 + lr % 10, 36] ++
        base64.encodeList sb ++ base64.encodeList hsh)).bind
        (fun p => (parse_u32_2 p.1 p.2).bind WorkFactor.exp) =
      some ⟨lr, hlr⟩ := by
    rw [get46_eq, if_neg (by rw [h6]; exact Bool.false_ne_true)]
    have h4 : ([36, 50, 98, 36, 48 + lr / 10, 48 + lr % 10, 36] ++
        base64.encodeList sb ++ base64.encodeList hsh).getD 4 0 =
        48 + lr / 10 := rfl
    have h5 : ([36, 50, 98, 36, 48 + lr / 10, 48 + lr % 10, 36] ++
        base64.encodeList sb ++ base64.encodeList hsh).getD 5 0 =
        48 + lr % 10 := rfl
    rw [h4, h5]
    simp only [Option.bind, hp]
    unfold WorkFactor.exp
    rw [dif_pos hlr]
  have hsreg : (([36, 50, 98, 36, 48 + lr / 10, 48 + lr % 10, 36] ++
        base64.encodeList sb ++ base64.encodeList hsh).drop 7).take 22 =
      base64.encodeList sb := by
    rw [show ([36, 50, 98, 36, 48 + lr / 10, 48 + lr % 10, 36] ++
        base64.encodeList sb ++ base64.encodeList hsh).drop 7 =
        base64.encodeList sb ++ base64.encodeList hsh from rfl,
      ← hse, List.take_left]
  have hhreg : (([36, 50, 98, 36, 48 + lr / 10, 48 + lr % 10, 36] ++
        base64.encodeList sb ++ base64.encodeList hsh).drop 29).take 31 =
      base64.encodeList hsh := by
    rw [show ([36, 50, 98, 36, 48 + lr / 10, 48 + lr % 10, 36] ++
        base64.encodeList sb ++ base64.encodeList hsh).drop 29 =
        (base64.encodeList sb ++ base64.encodeList hsh).drop 22 from rfl,
      List.drop_left' hse, ← hhe, List.take_length]
  rw [hwf, hsreg, hhreg, decodeList_encodeList sb hsb,
    decodeList_encodeList hsh hhb]
  rfl

/-- C2 (amended): a 60-byte text that parses successfully re-formats to the
identical 60 bytes provided the text is canonical: prefix `$2b$`, two ASCII
digits at bytes 4..5, a dollar sign at byte 6, and zero discarded low bits
in the final character of the salt field and of the digest field. -/
theorem c2_parse_then_format (s : List Nat) (r : Hash)
    (hlen : s.length = 60) (hb : ∀ x ∈ s, x < 256)
    (hpre : s.take 4 = PREFIX_2B)
    (hd4 : isAsciiDigit (s.getD 4 0) = true)
    (hd5 : isAsciiDigit (s.getD 5 0) = true)
    (h6 : s.getD 6 0 = 36)
    (hcanS : canonicalTail ((s.drop 7).take 22) = true)
    (hcanH : canonicalTail ((s.drop 29).take 31) = true)
    (hok : from_str s = some (.ok r)) :
    to_formatted r = some s := by
  rcases s with _ | ⟨s0, _ | ⟨s1, _ | ⟨s2, _ | ⟨s3, _ | ⟨s4, _ | ⟨s5, _ |
    ⟨s6, rest⟩⟩⟩⟩⟩⟩⟩
  · simp at hlen
  · simp at hlen
  · simp at hlen
  · simp at hlen
  · simp at hlen
  · simp at hlen
  · simp at hlen
  have hpre4 : [s0, s1, s2, s3] = PREFIX_2B := hpre
  simp only [PREFIX_2B, List.cons.injEq, and_true] at hpre4
  obtain ⟨rfl, rfl, rfl, rfl⟩ := hpre4
  have h6' : s6 = 36 := h6
  subst h6'
  have hrest : rest.length = 53 := by
    simp only [List.length_cons] at hlen
    omega
  have hd4' : isAsciiDigit s4 = true := hd4
  have hd5' : isAsciiDigit s5 = true := hd5
  have hpok : prefix_ok (36 :: 50 :: 98 :: 36 :: s4 :: s5 :: 36 :: rest) =
      true := by
    simp [prefix_ok, PREFIX_2A, PREFIX_2B, PREFIX_2Y, List.isPrefixOf]
  rw [from_str_eq _ hlen hpok] at hok
  have hdrop7 : (36 :: 50 :: 98 :: 36 :: s4 :: s5 :: 36 :: rest).drop 7 =
      rest := rfl
  have hdrop29 : (36 :: 50 :: 98 :: 36 :: s4 :: s5 :: 36 :: rest).drop 29 =
      rest.drop 22 := rfl
  have hlen31 : (rest.drop 22).length = 31 := by simp [hrest]
  have htk31 : (rest.drop 22).take 31 = rest.drop 22 := by
    conv_lhs => rw [← hlen31]
    exact List.take_length _
  rw [hdrop7, hdrop29, htk31] at hok
  rw [hdrop7] at hcanS
  rw [hdrop29, htk31] at hcanH
  rw [get46_eq] at hok
  have hic : isCont ((36 :: 50 :: 98 :: 36 :: s4 :: s5 :: 36 :: rest).getD
      6 0) = false := rfl
  rw [if_neg (by rw [hic]; exact Bool.false_ne_true)] at hok
  have g4 : (36 :: 50 :: 98 :: 36 :: s4 :: s5 :: 36 :: rest).getD 4 0 = s4 :=
    rfl
  have g5 : (36 :: 50 :: 98 :: 36 :: s4 :: s5 :: 36 :: rest).getD 5 0 = s5 :=
    rfl
  rw [g4, g5] at hok
  simp only [Option.bind] at hok
  have hp45 : parse_u32_2 s4 s5 = some (10 * (s4 - 48) + (s5 - 48)) := by
    unfold parse_u32_2
    rw [if_pos (by rw [hd4', hd5']; rfl)]
  rw [hp45] at hok
  simp only [Option.bind] at hok
  simp only [isAsciiDigit, Bool.and_eq_true, decide_eq_true_eq] at hd4' hd5'
  by_cases hrange : 4 ≤ 10 * (s4 - 48) + (s5 - 48) ∧
      10 * (s4 - 48) + (s5 - 48) ≤ 31
  case neg =>
    unfold WorkFactor.exp at hok
    rw [dif_neg hrange] at hok
    simp at hok
  case pos =>
  unfold WorkFactor.exp at hok
  rw [dif_pos hrange] at hok
  cases hsd : base64.decodeList (rest.take 22) with
  | error e =>
    rw [hsd] at hok
    simp at hok
  | ok saltBytes =>
    rw [hsd] at hok
    cases hhd : base64.decodeList (rest.drop 22) with
    | error e =>
      rw [hhd] at hok
      simp at hok
    | ok hashBytes =>
      rw [hhd] at hok
      simp only [Option.some.injEq, Except.ok.injEq] at hok
      subst hok
      have hbrest : ∀ x ∈ rest, x < 256 := fun x hx => hb x (by simp [hx])
      have hbs : ∀ c ∈ rest.take 22, c < 256 := fun c hc =>
        hbrest c (List.mem_of_mem_take hc)
      have hbh : ∀ c ∈ rest.drop 22, c < 256 := fun c hc =>
        hbrest c (List.mem_of_mem_drop hc)
      obtain ⟨hencS, hltS⟩ := encode_of_decode _ _ hbs hsd hcanS
      obtain ⟨hencH, hltH⟩ := encode_of_decode _ _ hbh hhd hcanH
      have hlenS : (rest.take 22).length = 22 := by simp [hrest]
      have hencSlen : (base64.encodeList saltBytes).length = 22 := by
        rw [hencS, hlenS]
      have hencHlen : (base64.encodeList hashBytes).length = 31 := by
        rw [hencH, hlen31]
      unfold to_formatted
      dsimp only [Salt.from_bytes, Salt.to_bytes, WorkFactor.log_rounds]
      have es := encode_some saltBytes (List.replicate 22 0)
        (by simp [hencSlen])
      rw [hencSlen, show (List.replicate 22 (0 : Nat)).drop 22 = [] from rfl,
        List.append_nil] at es
      have eh := encode_some hashBytes (List.replicate 31 0)
        (by simp [hencHlen])
      rw [hencHlen, show (List.replicate 31 (0 : Nat)).drop 31 = [] from rfl,
        List.append_nil] at eh
      rw [es, eh]
      have e4 : 48 + (10 * (s4 - 48) + (s5 - 48)) / 10 = s4 := by omega
      have e5 : 48 + (10 * (s4 - 48) + (s5 - 48)) % 10 = s5 := by omega
      rw [e4, e5, hencS, hencH]
      show some ([36, 50, 98, 36, s4, s5, 36] ++ List.take 22 rest ++
        List.drop 22 rest) =
        some (36 :: 50 :: 98 :: 36 :: s4 :: s5 :: 36 :: rest)
      rw [List.append_assoc, List.take_append_drop]
      rfl

/-- Counterexample to C2 as stated: a 60-byte `$2b$` text that parses
successfully but whose final salt character carries nonzero discarded low
bits; re-formatting the parsed record yields the canonical spelling, not
the original bytes. -/
theorem c2_counterexample :
    VECTOR_SALT_P.take 4 = PREFIX_2B ∧ parsesOk VECTOR_SALT_P = true ∧
    reformat VECTOR_SALT_P ≠ some VECTOR_SALT_P := by decide

/-- Witness for C2 at the reference test vector, which is canonical. -/
theorem c2_witness :
    to_formatted ⟨⟨4, by decide⟩,
      ⟨[121, 118, 43, 233, 151, 15, 91, 231, 58, 199, 124, 14, 79, 10, 56,
        81]⟩,
      [219, 143, 3, 96, 210, 170, 72, 225, 65, 85, 152, 187, 193, 181, 192,
       217, 16, 48, 67, 234, 57, 104, 106]⟩ = some TEST_VECTOR :=
  c2_parse_then_format TEST_VECTOR _ (by decide) (by decide) (by decide)
    (by decide) (by decide) (by decide) (by decide) (by decide) (by decide)

/-- Witness for C9 at a concrete record. -/
theorem c9_witness :
    ∃ f, to_formatted ⟨⟨6, by decide⟩, ⟨List.replicate 16 42⟩,
        List.replicate 23 7⟩ = some f ∧
      from_str f = some (.ok ⟨⟨6, by decide⟩, ⟨List.replicate 16 42⟩,
        List.replicate 23 7⟩) :=
  c9_format_then_parse _ (by decide) (by decide) (by decide) (by decide)
    (by decide)

/-- Counterexample to C3 as stated: a 60-byte text whose work-factor field
is `+4` — not two decimal digits — parses successfully instead of failing
with `WorkFactor`. -/
theorem c3_counterexample :
    VECTOR_PLUS.length = 60 ∧ prefix_ok VECTOR_PLUS = true ∧
    isAsciiDigit (VECTOR_PLUS.getD 4 0) = false ∧
    parsesOk VECTOR_PLUS = true ∧
    from_str VECTOR_PLUS ≠ some (.error .WorkFactor) := by decide

/-- Witness for C3 at the reference vector with its final salt character
changed. -/
theorem c3_witness :
    from_str VECTOR_SALT_P = some (.error .WorkFactor) ↔
      ¬ (isCont (VECTOR_SALT_P.getD 6 0) = false ∧
        ∃ n, WorkFactor.exp n ≠ none ∧
          ((isAsciiDigit (VECTOR_SALT_P.getD 4 0) = true ∧
            isAsciiDigit (VECTOR_SALT_P.getD 5 0) = true ∧
            n = 10 * (VECTOR_SALT_P.getD 4 0 - 48) +
              (VECTOR_SALT_P.getD 5 0 - 48)) ∨
           (VECTOR_SALT_P.getD 4 0 = 43 ∧
            isAsciiDigit (VECTOR_SALT_P.getD 5 0) = true ∧
            n = VECTOR_SALT_P.getD 5 0 - 48))) :=
  c3_workfactor_error_iff VECTOR_SALT_P (by decide) (by decide)

/-- The first byte of a valid UTF-8 sequence is never a continuation
byte. -/
theorem utf8_head_not_cont (b : Nat) (l : List Nat)
    (h : utf8Valid (b :: l) = true) : isCont b = false := by
  by_cases h1 : b < 128
  · unfold isCont
    rw [decide_eq_false (by omega : ¬ 128 ≤ b)]
    exact Bool.false_and _
  · by_cases h2 : b < 192
    · exfalso
      unfold utf8Valid at h
      rw [if_neg h1, if_pos h2] at h
      cases h
    · unfold isCont
      rw [decide_eq_false (by omega : ¬ b < 192)]
      exact Bool.and_false _

/-- In valid UTF-8, whether the byte at position `n` is a continuation byte
is determined by the first `n` bytes: characters are consumed greedily from
the left, each lead byte fixes its character's length, and all bytes inside
a character except the lead are continuation bytes. -/
theorem utf8_cont_determined : ∀ (n : Nat) (s t : List Nat), utf8Valid s = true →
    utf8Valid t = true → s.take n = t.take n → n < s.length →
    n < t.length → isCont (s.getD n 0) = isCont (t.getD n 0) := by
  intro n
  induction n using Nat.strong_induction_on with
  | _ n ih =>
    intro s t hs ht htake hns hnt
    rcases s with _ | ⟨b, s1⟩
    · simp at hns
    rcases t with _ | ⟨b2, t1⟩
    · simp at hnt
    rcases n with _ | m
    · rw [List.getD_cons_zero, List.getD_cons_zero,
        utf8_head_not_cont b s1 hs, utf8_head_not_cont b2 t1 ht]
    · rw [List.take_succ_cons, List.take_succ_cons] at htake
      injection htake with hb htake
      subst hb
      rw [List.getD_cons_succ, List.getD_cons_succ]
      simp only [List.length_cons] at hns hnt
      by_cases h1 : b < 128
      · have hs1 : utf8Valid s1 = true := by
          unfold utf8Valid at hs
          rwa [if_pos h1] at hs
        have ht1 : utf8Valid t1 = true := by
          unfold utf8Valid at ht
          rwa [if_pos h1] at ht
        exact ih m (by omega) s1 t1 hs1 ht1 htake (by omega) (by omega)
      · by_cases h2 : b < 192
        · exfalso
          unfold utf8Valid at hs
          rw [if_neg h1, if_pos h2] at hs
          cases hs
        · by_cases h3 : b < 224
          · unfold utf8Valid at hs ht
            rw [if_neg h1, if_neg h2, if_pos h3] at hs ht
            rcases s1 with _ | ⟨c1, s2⟩
            · simp [utf8Tail1] at hs
            rcases t1 with _ | ⟨d1, t2⟩
            · simp [utf8Tail1] at ht
            simp only [utf8Tail1, Bool.and_eq_true] at hs ht
            rcases m with _ | m2
            · rw [List.getD_cons_zero, List.getD_cons_zero, hs.1, ht.1]
            · rw [List.take_succ_cons, List.take_succ_cons] at htake
              injection htake with hc htake
              rw [List.getD_cons_succ, List.getD_cons_succ]
              simp only [List.length_cons] at hns hnt
              exact ih m2 (by omega) s2 t2 hs.2 ht.2 htake (by omega)
                (by omega)
          · by_cases h4 : b < 240
            · unfold utf8Valid at hs ht
              rw [if_neg h1, if_neg h2, if_neg h3, if_pos h4] at hs ht
              rcases s1 with _ | ⟨c1, _ | ⟨c2, s2⟩⟩
              · simp [utf8Tail2] at hs
              · simp [utf8Tail2, utf8Tail1] at hs
              rcases t1 with _ | ⟨d1, _ | ⟨d2, t2⟩⟩
              · simp [utf8Tail2] at ht
              · simp [utf8Tail2, utf8Tail1] at ht
              simp only [utf8Tail2, utf8Tail1, Bool.and_eq_true] at hs ht
              rcases m with _ | (_ | m2)
              · rw [List.getD_cons_zero, List.getD_cons_zero, hs.1, ht.1]
              · rw [List.getD_cons_succ, List.getD_cons_succ,
                  List.getD_cons_zero, List.getD_cons_zero, hs.2.1, ht.2.1]
              · rw [List.take_succ_cons, List.take_succ_cons] at htake
                injection htake with hc htake
                injection htake with hc2 htake
                rw [List.getD_cons_succ, List.getD_cons_succ,
                  List.getD_cons_succ, List.getD_cons_succ]
                simp only [List.length_cons] at hns hnt
                exact ih m2 (by omega) s2 t2 hs.2.2 ht.2.2 htake (by omega)
                  (by omega)
            · by_cases h5 : b < 245
              · unfold utf8Valid at hs ht
                rw [if_neg h1, if_neg h2, if_neg h3, if_neg h4, if_pos h5]
                  at hs ht
                rcases s1 with _ | ⟨c1, _ | ⟨c2, _ | ⟨c3, s2⟩⟩⟩
                · simp [utf8Tail3] at hs
                · simp [utf8Tail3, utf8Tail2] at hs
                · simp [utf8Tail3, utf8Tail2, utf8Tail1] at hs
                rcases t1 with _ | ⟨d1, _ | ⟨d2, _ | ⟨d3, t2⟩⟩⟩
                · simp [utf8Tail3] at ht
                · simp [utf8Tail3, utf8Tail2] at ht
                · simp [utf8Tail3, utf8Tail2, utf8Tail1] at ht
                simp only [utf8Tail3, utf8Tail2, utf8Tail1,
                  Bool.and_eq_true] at hs ht
                rcases m with _ | (_ | (_ | m2))
                · rw [List.getD_cons_zero, List.getD_cons_zero, hs.1, ht.1]
                · rw [List.getD_cons_succ, List.getD_cons_succ,
                    List.getD_cons_zero, List.getD_cons_zero, hs.2.1, ht.2.1]
                · rw [List.getD_cons_succ, List.getD_cons_succ,
                    List.getD_cons_succ, List.getD_cons_succ,
                    List.getD_cons_zero, List.getD_cons_zero,
                    hs.2.2.1, ht.2.2.1]
                · rw [List.take_succ_cons, List.take_succ_cons,
                    List.take_succ_cons] at htake
                  injection htake with hc htake
                  injection htake with hc2 htake
                  injection htake with hc3 htake
                  rw [List.getD_cons_succ, List.getD_cons_succ,
                    List.getD_cons_succ, List.getD_cons_succ,
                    List.getD_cons_succ, List.getD_cons_succ]
                  simp only [List.length_cons] at hns hnt
                  exact ih m2 (by omega) s2 t2 hs.2.2.2 ht.2.2.2 htake
                    (by omega) (by omega)
              · exfalso
                unfold utf8Valid at hs
                rw [if_neg h1, if_neg h2, if_neg h3, if_neg h4, if_neg h5]
                  at hs
                cases hs

/-- C8: `Hash::from_str` never inspects the byte at offset 6: two 60-byte
UTF-8 strings that differ only there parse identically, and in particular a
60-byte string whose byte 6 is not a dollar sign parses successfully. -/
theorem c8_byte6_not_inspected :
    (∀ s1 s2 : List Nat, s1.length = 60 → s2.length = 60 →
      utf8Valid s1 = true → utf8Valid s2 = true →
      (∀ i, i ≠ 6 → s1.getD i 0 = s2.getD i 0) →
      from_str s1 = from_str s2) ∧
    (parsesOk VECTOR_X6 = true ∧ VECTOR_X6.getD 6 0 ≠ 36) := by
  refine ⟨?_, by decide, by decide⟩
  intro s1 s2 hl1 hl2 hu1 hu2 heq
  rcases s1 with _ | ⟨a0, _ | ⟨a1, _ | ⟨a2, _ | ⟨a3, _ | ⟨a4, _ | ⟨a5, _ |
    ⟨x6, r1⟩⟩⟩⟩⟩⟩⟩
  · simp at hl1
  · simp at hl1
  · simp at hl1
  · simp at hl1
  · simp at hl1
  · simp at hl1
  · simp at hl1
  rcases s2 with _ | ⟨b0, _ | ⟨b1, _ | ⟨b2, _ | ⟨b3, _ | ⟨b4, _ | ⟨b5, _ |
    ⟨y6, r2⟩⟩⟩⟩⟩⟩⟩
  · simp at hl2
  · simp at hl2
  · simp at hl2
  · simp at hl2
  · simp at hl2
  · simp at hl2
  · simp at hl2
  have e0 : a0 = b0 := heq 0 (by omega)
  have e1 : a1 = b1 := heq 1 (by omega)
  have e2 : a2 = b2 := heq 2 (by omega)
  have e3 : a3 = b3 := heq 3 (by omega)
  have e4 : a4 = b4 := heq 4 (by omega)
  have e5 : a5 = b5 := heq 5 (by omega)
  subst e0 e1 e2 e3 e4 e5
  have hlr1 : r1.length = 53 := by
    simp only [List.length_cons] at hl1
    omega
  have hlr2 : r2.length = 53 := by
    simp only [List.length_cons] at hl2
    omega
  have etail : r1 = r2 := by
    apply List.ext_getElem (by omega)
    intro i hi1 hi2
    have h := heq (i + 7) (by omega)
    have g1 : (a0 :: a1 :: a2 :: a3 :: a4 :: a5 :: x6 :: r1).getD (i + 7) 0 =
        r1.getD i 0 := rfl
    have g2 : (a0 :: a1 :: a2 :: a3 :: a4 :: a5 :: y6 :: r2).getD (i + 7) 0 =
        r2.getD i 0 := rfl
    rw [g1, g2, List.getD_eq_getElem r1 0 hi1, List.getD_eq_getElem r2 0 hi2]
      at h
    exact h
  subst etail
  have hpeq : prefix_ok (a0 :: a1 :: a2 :: a3 :: a4 :: a5 :: x6 :: r1) =
      prefix_ok (a0 :: a1 :: a2 :: a3 :: a4 :: a5 :: y6 :: r1) := rfl
  by_cases hpok : prefix_ok (a0 :: a1 :: a2 :: a3 :: a4 :: a5 :: x6 :: r1) =
      true
  · have hcont : isCont x6 = isCont y6 := by
      have h := utf8_cont_determined 6
        (a0 :: a1 :: a2 :: a3 :: a4 :: a5 :: x6 :: r1)
        (a0 :: a1 :: a2 :: a3 :: a4 :: a5 :: y6 :: r1)
        hu1 hu2 rfl (by simp) (by simp)
      exact h
    rw [from_str_eq _ hl1 hpok, from_str_eq _ hl2 (hpeq ▸ hpok)]
    simp only [get46_eq]
    rw [show (a0 :: a1 :: a2 :: a3 :: a4 :: a5 :: x6 :: r1).getD 6 0 = x6
        from rfl,
      show (a0 :: a1 :: a2 :: a3 :: a4 :: a5 :: y6 :: r1).getD 6 0 = y6
        from rfl,
      hcont]
    rfl
  · have hpf : prefix_ok (a0 :: a1 :: a2 :: a3 :: a4 :: a5 :: x6 :: r1) =
        false := by
      cases hpx : prefix_ok (a0 :: a1 :: a2 :: a3 :: a4 :: a5 :: x6 :: r1)
      · rfl
      · exact absurd hpx hpok
    rw [from_str_pre _ hl1 hpf, from_str_pre _ hl2 (hpeq ▸ hpf)]

/-- Witness for C8: the reference vector and its byte-6 modification parse
identically. -/
theorem c8_witness : from_str TEST_VECTOR = from_str VECTOR_X6 :=
  c8_byte6_not_inspected.1 TEST_VECTOR VECTOR_X6 (by decide) (by decide)
    (by decide) (by decide)
    (fun i hi => by
      have hb : ∀ j, j < 60 → j ≠ 6 →
          TEST_VECTOR.getD j 0 = VECTOR_X6.getD j 0 := by decide
      by_cases h : i < 60
      · exact hb i h hi
      · have h1 : TEST_VECTOR.length ≤ i := by
          have : TEST_VECTOR.length = 60 := by decide
          omega
        have h2 : VECTOR_X6.length ≤ i := by
          have : VECTOR_X6.length = 60 := by decide
          omega
        rw [List.getD_eq_default _ _ h1, List.getD_eq_default _ _ h2])

/-- Witness for C10 at a one-byte input and an oversized buffer. -/
theorem c10_witness :
    (∃ r, base64.encode [7] [9, 9, 9, 9] = some r ∧ r.length = 4 ∧
      r.take 2 = base64.encodeList [7] ∧ r.drop 2 = [9, 9]) ∧
    base64.encode [7] [9] = none := by
  constructor
  · obtain ⟨r, h1, h2, h3, h4⟩ := (c10_encode_frame [7] [9, 9, 9, 9]).1
      (by decide)
    exact ⟨r, h1, h2, h3, h4⟩
  · exact (c10_encode_frame [7] [9]).2 (by decide)

end BcryptSmall
